import Mathlib

/-!
# Verification of the item-recommendation pipeline

Shallow embedding of the Rust sources `src/preprocessing.rs`, `src/graph.rs`
and `src/main.rs` of the recommendation-system repository, together with
proofs and refutations of the frozen specification claims.

Modelling conventions:

* Finite `f64` values are modelled by exact rationals (`ℚ`); floating-point
  rounding is not modelled, arithmetic is exact.
* The two non-finite behaviours the code can actually produce are modelled
  explicitly: division by zero (`(v - min) / (max - min)` with `max = min`,
  and `dot / (norms[i] * norms[j])` with a zero norm) and the panic of
  `partial_cmp(..).unwrap()` on a NaN comparison.
* A Rust panic is modelled as `Option.none` (for `build_graph_from_features`)
  or as the `RunResult.panicked` constructor (for `load_and_preprocess`,
  which can also return a recoverable `Err`, modelled by `RunResult.error`).
* `sort_by` is Rust's stable sort; it is modelled by a stable insertion sort
  threading the fallible comparator, which agrees with any stable sort on
  every input whose executed comparisons are all defined.
-/

/-- Model of an `f64` value as stored in the feature matrix: either a finite
value (an exact rational) or one of the non-finite IEEE values that the
scaling expression `(v - min) / (max - min)` can produce. -/
inductive F64 where
  | nan : F64
  | negInf : F64
  | posInf : F64
  | val (q : ℚ) : F64
deriving DecidableEq

/-- IEEE division of finite `a` by finite `b` (`a`, `b` exact): `0/0` is NaN
and `±c/0` is a signed infinity, otherwise the exact quotient. -/
def fdiv (a b : ℚ) : F64 :=
  if b = 0 then
    if a = 0 then F64.nan else if 0 < a then F64.posInf else F64.negInf
  else F64.val (a / b)

/-- Dot product of two feature rows, as in
`features.row(i).dot(&features.row(j))`. -/
def dot (xs ys : List ℚ) : ℚ := (List.zipWith (· * ·) xs ys).sum

/-- The squared Euclidean norm `row_i · row_i`; the code stores
`norms[i] = sqrt (normSq row_i)`, which we keep in squared form so that all
program data stays rational. -/
def normSq (xs : List ℚ) : ℚ := dot xs xs

/-- A feature matrix (`ndarray::Array2<f64>`), row-major, finite entries. -/
abbrev Mat := List (List ℚ)

/-- Row `i` of a feature matrix. -/
def row (m : Mat) (i : ℕ) : List ℚ := m.getD i []

/-- The `f64` similarity value `dot / (norms[i] * norms[j])` kept in exact
form: `fin a x` stands for the real number `a / Real.sqrt x` with `x > 0`
(`x` is `normSq row_i * normSq row_j`, using `√u * √v = √(u*v)`); the other
constructors are the non-finite IEEE outcomes of the division. -/
inductive SimVal where
  | nan : SimVal
  | negInf : SimVal
  | posInf : SimVal
  | fin (num den2 : ℚ) : SimVal
deriving DecidableEq

/-- The value of `dot / (sqrt ni * sqrt nj)` in `f64` semantics, where `ni`,
`nj` are the squared norms: a negative squared norm would make `sqrt` return
NaN (unreachable, since squared norms are nonnegative); a zero squared norm
makes the denominator `0.0`, giving NaN or a signed infinity depending on the
numerator; otherwise the finite value `num / √(ni*nj)`. -/
def mkSim (num ni nj : ℚ) : SimVal :=
  if ni < 0 ∨ nj < 0 then SimVal.nan
  else if ni = 0 ∨ nj = 0 then
    (if num = 0 then SimVal.nan else if 0 < num then SimVal.posInf else SimVal.negInf)
  else SimVal.fin num (ni * nj)

/-- Rational three-way comparison (`Ordering`-valued). -/
def qcmp (a b : ℚ) : Ordering :=
  if a < b then Ordering.lt else if a = b then Ordering.eq else Ordering.gt

/-- Three-way comparison of the finite similarity values `a/√x` and `b/√y`
(`x, y > 0`), decided in exact rational arithmetic by sign analysis and
cross-multiplied squares. -/
def cmpFin (a x b y : ℚ) : Ordering :=
  if a < 0 then
    (if b < 0 then qcmp (b ^ 2 * x) (a ^ 2 * y) else Ordering.lt)
  else if a = 0 then
    (if b < 0 then Ordering.gt else if b = 0 then Ordering.eq else Ordering.lt)
  else
    (if b ≤ 0 then Ordering.gt else qcmp (a ^ 2 * y) (b ^ 2 * x))

/-- Model of `f64::partial_cmp` on similarity values: `none` exactly when one
operand is NaN (this is where `unwrap()` panics in the source). -/
def fcmp : SimVal → SimVal → Option Ordering
  | SimVal.nan, _ => none
  | _, SimVal.nan => none
  | SimVal.negInf, SimVal.negInf => some Ordering.eq
  | SimVal.negInf, _ => some Ordering.lt
  | _, SimVal.negInf => some Ordering.gt
  | SimVal.posInf, SimVal.posInf => some Ordering.eq
  | SimVal.posInf, _ => some Ordering.gt
  | _, SimVal.posInf => some Ordering.lt
  | SimVal.fin a x, SimVal.fin b y => some (cmpFin a x b y)

/-- The similarity key the code computes for candidate `j` of row `i`:
`dot(row_i, row_j) / (norms[i] * norms[j])`. -/
def simKey (m : Mat) (i j : ℕ) : SimVal :=
  mkSim (dot (row m i) (row m j)) (normSq (row m i)) (normSq (row m j))

/-- The comparator passed to `sort_by`: `|a, b| b.1.partial_cmp(&a.1)`
(descending similarity), before the `unwrap()`. -/
def simCmp (p q : ℕ × SimVal) : Option Ordering := fcmp q.2 p.2

/-- Insert `x` into the already-sorted list, threading the fallible
comparator; `none` models the `unwrap()` panic.  `x` is placed after every
element it compares `eq` or `gt` against, which is what stability of
`sort_by` guarantees for an element arriving later in the input. -/
def insertOpt (cmp : α → α → Option Ordering) (x : α) : List α → Option (List α)
  | [] => some [x]
  | y :: ys =>
    match cmp x y with
    | none => none
    | some Ordering.lt => some (x :: y :: ys)
    | some Ordering.eq => (insertOpt cmp x ys).map (y :: ·)
    | some Ordering.gt => (insertOpt cmp x ys).map (y :: ·)

/-- Stable insertion sort with a fallible comparator; `acc` is the sorted
prefix. -/
def sortAux (cmp : α → α → Option Ordering) : List α → List α → Option (List α)
  | acc, [] => some acc
  | acc, x :: xs =>
    match insertOpt cmp x acc with
    | none => none
    | some acc' => sortAux cmp acc' xs

/-- Model of `sim_list.sort_by(|a, b| b.1.partial_cmp(&a.1).unwrap())`:
a stable sort that aborts (panics) if any executed comparison is undefined. -/
def sortOpt (cmp : α → α → Option Ordering) (l : List α) : Option (List α) :=
  sortAux cmp [] l

/-- The list `(0..n).filter(|&j| j != i).map(|j| (j, sim))` built for row
`i`: candidates in ascending index order, paired with their similarity. -/
def simList (m : Mat) (i : ℕ) : List (ℕ × SimVal) :=
  ((List.range m.length).filter (fun j => j ≠ i)).map (fun j => (j, simKey m i j))

/-- `Option`-threading map, modelling a loop that aborts at the first panic. -/
def mapOpt (f : α → Option β) : List α → Option (List β)
  | [] => some []
  | x :: xs =>
    match f x, mapOpt f xs with
    | some y, some ys => some (y :: ys)
    | _, _ => none

/-- Model of `build_graph_from_features` (src/preprocessing.rs): for every
row, sort all other rows by descending cosine similarity and keep the first
`k` indices.  `none` models the panic of the comparator's `unwrap()` on a
NaN similarity. -/
def build_graph_from_features (m : Mat) (k : ℕ) : Option (List (List ℕ)) :=
  mapOpt
    (fun i => (sortOpt simCmp (simList m i)).map (fun l => (l.take k).map Prod.fst))
    (List.range m.length)

-- sanity checks (test_build_graph from the source, k = 1)
example : build_graph_from_features [[1, 0], [1, 0], [0, 1]] 1 =
    some [[1], [0], [0]] := by with_unfolding_all decide

example : build_graph_from_features [[0, 0], [1, 0], [0, 1]] 1 = none := by with_unfolding_all decide

example : build_graph_from_features [[1], [2], [3]] 2 =
    some [[1, 2], [0, 2], [0, 1]] := by with_unfolding_all decide

/-! ## Generic facts about the fallible stable insertion sort -/

section SortLemmas

variable {α : Type*}

/-- The comparator `cmp` agrees with the real-valued key `v` on every pair of
elements of `s` on which it is defined. -/
def Reflects (cmp : α → α → Option Ordering) (v : α → ℝ) (s : List α) : Prop :=
  ∀ p ∈ s, ∀ q ∈ s,
    (cmp p q = some Ordering.lt → v p < v q) ∧
    (cmp p q = some Ordering.eq → v p = v q) ∧
    (cmp p q = some Ordering.gt → v q < v p)

theorem Reflects.subset {cmp : α → α → Option Ordering} {v : α → ℝ} {s s' : List α}
    (h : Reflects cmp v s) (hsub : s' ⊆ s) : Reflects cmp v s' :=
  fun p hp q hq => h p (hsub hp) q (hsub hq)

theorem insertOpt_elim {cmp : α → α → Option Ordering} {x y : α} {ys t : List α}
    (h : insertOpt cmp x (y :: ys) = some t) :
    (cmp x y = some Ordering.lt ∧ t = x :: y :: ys) ∨
    ((cmp x y = some Ordering.eq ∨ cmp x y = some Ordering.gt) ∧
      ∃ t', insertOpt cmp x ys = some t' ∧ t = y :: t') := by
  cases hc : cmp x y with
  | none => simp [insertOpt, hc] at h
  | some o =>
    cases o with
    | lt =>
      simp only [insertOpt, hc] at h
      exact Or.inl ⟨rfl, (Option.some_inj.mp h).symm⟩
    | eq =>
      simp only [insertOpt, hc, Option.map_eq_some'] at h
      obtain ⟨t', ht', rfl⟩ := h
      exact Or.inr ⟨Or.inl rfl, t', ht', rfl⟩
    | gt =>
      simp only [insertOpt, hc, Option.map_eq_some'] at h
      obtain ⟨t', ht', rfl⟩ := h
      exact Or.inr ⟨Or.inr rfl, t', ht', rfl⟩

theorem insertOpt_perm {cmp : α → α → Option Ordering} {x : α} :
    ∀ {l t : List α}, insertOpt cmp x l = some t → t.Perm (x :: l)
  | [], t, h => by
    simp only [insertOpt, Option.some_inj] at h
    exact h ▸ List.Perm.refl _
  | y :: ys, t, h => by
    rcases insertOpt_elim h with ⟨_, rfl⟩ | ⟨_, t', ht', rfl⟩
    · exact List.Perm.refl _
    · exact ((insertOpt_perm ht').cons y).trans (List.Perm.swap x y ys)

theorem insertOpt_mem {cmp : α → α → Option Ordering} {x : α} {l t : List α}
    (h : insertOpt cmp x l = some t) {a : α} (ha : a ∈ t) : a = x ∨ a ∈ l := by
  have := (insertOpt_perm h).mem_iff.mp ha
  simpa using this

theorem insertOpt_pairwise {cmp : α → α → Option Ordering} {v : α → ℝ} {x : α} :
    ∀ {l t : List α}, Reflects cmp v (x :: l) →
      l.Pairwise (fun a b => v a ≤ v b) → insertOpt cmp x l = some t →
      t.Pairwise (fun a b => v a ≤ v b)
  | [], t, _, _, h => by
    simp only [insertOpt, Option.some_inj] at h
    exact h ▸ List.pairwise_singleton _ _
  | y :: ys, t, hr, hs, h => by
    rw [List.pairwise_cons] at hs
    rcases insertOpt_elim h with ⟨hc, rfl⟩ | ⟨hc, t', ht', rfl⟩
    · have hxy : v x < v y :=
        (hr x (by simp) y (by simp)).1 hc
      refine List.pairwise_cons.mpr ⟨?_, List.pairwise_cons.mpr hs⟩
      intro b hb
      rcases List.mem_cons.mp hb with rfl | hb
      · exact le_of_lt hxy
      · exact le_of_lt (lt_of_lt_of_le hxy (hs.1 b hb))
    · have hyx : v y ≤ v x := by
        rcases hc with hc | hc
        · exact le_of_eq ((hr x (by simp) y (by simp)).2.1 hc).symm
        · exact le_of_lt ((hr x (by simp) y (by simp)).2.2 hc)
      have hr' : Reflects cmp v (x :: ys) :=
        hr.subset (by intro a ha; rcases List.mem_cons.mp ha with rfl | ha <;> simp [ha])
      have ht : t'.Pairwise (fun a b => v a ≤ v b) := insertOpt_pairwise hr' hs.2 ht'
      refine List.pairwise_cons.mpr ⟨?_, ht⟩
      intro b hb
      rcases insertOpt_mem ht' hb with rfl | hb
      · exact hyx
      · exact hs.1 b hb

theorem insertOpt_sublist_pair {cmp : α → α → Option Ordering} {x a b : α} :
    ∀ {l t : List α}, insertOpt cmp x l = some t →
      List.Sublist [a, b] l → List.Sublist [a, b] t
  | [], t, _, hab => by cases hab
  | y :: ys, t, h, hab => by
    rcases insertOpt_elim h with ⟨_, rfl⟩ | ⟨_, t', ht', rfl⟩
    · exact hab.cons x
    · cases hab with
      | cons _ hab => exact (insertOpt_sublist_pair ht' hab).cons y
      | cons₂ _ hb =>
        have hbt : b ∈ t' := (insertOpt_perm ht').mem_iff.mpr
          (List.mem_cons_of_mem x (List.singleton_sublist.mp hb))
        exact List.Sublist.cons₂ _ (List.singleton_sublist.mpr hbt)

theorem insertOpt_tie_after {cmp : α → α → Option Ordering} {v : α → ℝ} {x : α} :
    ∀ {l t : List α}, Reflects cmp v (x :: l) →
      l.Pairwise (fun a b => v a ≤ v b) → insertOpt cmp x l = some t →
      ∀ a ∈ l, v a = v x → List.Sublist [a, x] t
  | [], _, _, _, _, a, ha, _ => by cases ha
  | y :: ys, t, hr, hs, h, a, ha, hva => by
    rw [List.pairwise_cons] at hs
    rcases insertOpt_elim h with ⟨hc, rfl⟩ | ⟨hc, t', ht', rfl⟩
    · have hxy : v x < v y := (hr x (by simp) y (by simp)).1 hc
      rcases List.mem_cons.mp ha with rfl | ha
      · exact absurd (hva ▸ hxy) (lt_irrefl _)
      · exact absurd (hva ▸ lt_of_lt_of_le hxy (hs.1 a ha)) (lt_irrefl _)
    · rcases List.mem_cons.mp ha with rfl | ha
      · have hxt : x ∈ t' := (insertOpt_perm ht').mem_iff.mpr (by simp)
        exact (List.singleton_sublist.mpr hxt).cons₂ a
      · have hr' : Reflects cmp v (x :: ys) :=
          hr.subset (by intro c hc2; rcases List.mem_cons.mp hc2 with rfl | hc2 <;> simp [hc2])
        exact (insertOpt_tie_after hr' hs.2 ht' a ha hva).cons y

theorem sortAux_perm {cmp : α → α → Option Ordering} :
    ∀ {rest acc out : List α}, sortAux cmp acc rest = some out → out.Perm (acc ++ rest)
  | [], acc, out, h => by
    simp only [sortAux, Option.some_inj] at h
    simp [← h]
  | x :: rest', acc, out, h => by
    rw [sortAux] at h
    cases hi : insertOpt cmp x acc with
    | none => rw [hi] at h; cases h
    | some acc' =>
      rw [hi] at h
      have h1 : out.Perm (acc' ++ rest') := sortAux_perm h
      have h2 : acc'.Perm (x :: acc) := insertOpt_perm hi
      exact h1.trans ((h2.append_right rest').trans List.perm_middle.symm)

theorem sortAux_props {cmp : α → α → Option Ordering} {v : α → ℝ} :
    ∀ {rest acc out : List α}, sortAux cmp acc rest = some out →
      Reflects cmp v (acc ++ rest) → acc.Pairwise (fun a b => v a ≤ v b) →
      out.Pairwise (fun a b => v a ≤ v b) ∧
      (∀ a b : α, List.Sublist [a, b] acc → List.Sublist [a, b] out) ∧
      (∀ a ∈ acc, ∀ x ∈ rest, v a = v x → List.Sublist [a, x] out) ∧
      (∀ x y : α, List.Sublist [x, y] rest → v x = v y → List.Sublist [x, y] out)
  | [], acc, out, h, _, hs => by
    simp only [sortAux, Option.some_inj] at h
    subst h
    refine ⟨hs, fun a b hab => hab, fun a _ x hx => absurd hx (List.not_mem_nil x),
      fun x y hxy => ?_⟩
    cases hxy
  | x :: rest', acc, out, h, hr, hs => by
    rw [sortAux] at h
    cases hi : insertOpt cmp x acc with
    | none => rw [hi] at h; cases h
    | some acc' =>
      rw [hi] at h
      have hperm : acc'.Perm (x :: acc) := insertOpt_perm hi
      have hsubxacc : (x :: acc) ⊆ (acc ++ x :: rest') := by
        intro c hc
        rcases List.mem_cons.mp hc with rfl | hc <;> simp [hc]
      have hrxacc : Reflects cmp v (x :: acc) := hr.subset hsubxacc
      have hs' : acc'.Pairwise (fun a b => v a ≤ v b) := insertOpt_pairwise hrxacc hs hi
      have hr' : Reflects cmp v (acc' ++ rest') := by
        refine hr.subset ?_
        intro c hc
        rcases List.mem_append.mp hc with hc | hc
        · exact hsubxacc (hperm.mem_iff.mp hc)
        · simp [hc]
      obtain ⟨p1, p2, p3, p4⟩ := sortAux_props h hr' hs'
      refine ⟨p1, ?_, ?_, ?_⟩
      · intro a b hab
        exact p2 a b (insertOpt_sublist_pair hi hab)
      · intro a ha w hw hvaw
        rcases List.mem_cons.mp hw with rfl | hw
        · exact p2 a w (insertOpt_tie_after hrxacc hs hi a ha hvaw)
        · exact p3 a (hperm.mem_iff.mpr (List.mem_cons_of_mem x ha)) w hw hvaw
      · intro p q hpq hvpq
        cases hpq with
        | cons _ hpq => exact p4 p q hpq hvpq
        | cons₂ _ hq =>
          exact p3 x (hperm.mem_iff.mpr (List.mem_cons_self x acc)) q
            (List.singleton_sublist.mp hq) hvpq

theorem sortOpt_perm {cmp : α → α → Option Ordering} {l out : List α}
    (h : sortOpt cmp l = some out) : out.Perm l :=
  sortAux_perm h

theorem sortOpt_pairwise {cmp : α → α → Option Ordering} {v : α → ℝ} {l out : List α}
    (h : sortOpt cmp l = some out) (hr : Reflects cmp v l) :
    out.Pairwise (fun a b => v a ≤ v b) :=
  (sortAux_props h hr (List.Pairwise.nil)).1

theorem sortOpt_tie_stable {cmp : α → α → Option Ordering} {v : α → ℝ} {l out : List α}
    (h : sortOpt cmp l = some out) (hr : Reflects cmp v l) {x y : α}
    (hxy : List.Sublist [x, y] l) (hv : v x = v y) : List.Sublist [x, y] out :=
  (sortAux_props h hr (List.Pairwise.nil)).2.2.2 x y hxy hv

end SortLemmas

/-! ## The real value denoted by a similarity key -/

/-- The real number a finite similarity key denotes (`fin a x` stands for
`a / √x`); non-finite keys are mapped to `0`.  Proof-side valuation only. -/
noncomputable def simRVal : SimVal → ℝ
  | SimVal.fin a x => (a : ℝ) / Real.sqrt (x : ℝ)
  | _ => 0

theorem qcmp_lt_iff {a b : ℚ} : qcmp a b = Ordering.lt ↔ a < b := by
  unfold qcmp
  split_ifs with h1 h2
  · exact iff_of_true rfl h1
  · exact iff_of_false (by decide) (by rw [h2]; exact lt_irrefl b)
  · exact iff_of_false (by decide) h1

theorem qcmp_eq_iff {a b : ℚ} : qcmp a b = Ordering.eq ↔ a = b := by
  unfold qcmp
  split_ifs with h1 h2
  · exact iff_of_false (by decide) (ne_of_lt h1)
  · exact iff_of_true rfl h2
  · exact iff_of_false (by decide) h2

theorem qcmp_gt_iff {a b : ℚ} : qcmp a b = Ordering.gt ↔ b < a := by
  unfold qcmp
  split_ifs with h1 h2
  · exact iff_of_false (by decide) (lt_asymm h1)
  · exact iff_of_false (by decide) (by rw [h2]; exact lt_irrefl b)
  · exact iff_of_true rfl (lt_of_le_of_ne (le_of_not_lt h1) (Ne.symm h2))

theorem rsqrt_pos {x : ℚ} (hx : 0 < x) : (0 : ℝ) < Real.sqrt (x : ℝ) :=
  Real.sqrt_pos.mpr (by exact_mod_cast hx)

theorem div_sqrt_lt_div_sqrt {a x b y : ℚ} (ha : 0 < a) (hb : 0 < b)
    (hx : 0 < x) (hy : 0 < y) :
    ((a : ℝ) / Real.sqrt (x : ℝ) < (b : ℝ) / Real.sqrt (y : ℝ)) ↔
      a ^ 2 * y < b ^ 2 * x := by
  rw [div_lt_div_iff₀ (rsqrt_pos hx) (rsqrt_pos hy)]
  have h1 : (0 : ℝ) ≤ (a : ℝ) * Real.sqrt (y : ℝ) := by positivity
  have h2 : (0 : ℝ) ≤ (b : ℝ) * Real.sqrt (x : ℝ) := by positivity
  rw [mul_self_lt_mul_self_iff h1 h2]
  have ey : Real.sqrt (y : ℝ) * Real.sqrt (y : ℝ) = (y : ℝ) :=
    Real.mul_self_sqrt (by exact_mod_cast le_of_lt hy)
  have ex : Real.sqrt (x : ℝ) * Real.sqrt (x : ℝ) = (x : ℝ) :=
    Real.mul_self_sqrt (by exact_mod_cast le_of_lt hx)
  rw [show (a : ℝ) * Real.sqrt (y : ℝ) * ((a : ℝ) * Real.sqrt (y : ℝ)) =
      (a : ℝ) ^ 2 * (Real.sqrt (y : ℝ) * Real.sqrt (y : ℝ)) by ring,
    show (b : ℝ) * Real.sqrt (x : ℝ) * ((b : ℝ) * Real.sqrt (x : ℝ)) =
      (b : ℝ) ^ 2 * (Real.sqrt (x : ℝ) * Real.sqrt (x : ℝ)) by ring, ey, ex]
  exact_mod_cast Iff.rfl

theorem div_sqrt_eq_div_sqrt {a x b y : ℚ} (ha : 0 < a) (hb : 0 < b)
    (hx : 0 < x) (hy : 0 < y) :
    ((a : ℝ) / Real.sqrt (x : ℝ) = (b : ℝ) / Real.sqrt (y : ℝ)) ↔
      a ^ 2 * y = b ^ 2 * x := by
  constructor
  · intro h
    have hA := (div_sqrt_lt_div_sqrt ha hb hx hy).not.mp (by rw [h]; exact lt_irrefl _)
    have hB := (div_sqrt_lt_div_sqrt hb ha hy hx).not.mp (by rw [h]; exact lt_irrefl _)
    exact le_antisymm (le_of_not_lt hB) (le_of_not_lt hA)
  · intro h
    have hA := (div_sqrt_lt_div_sqrt ha hb hx hy).not.mpr (by rw [h]; exact lt_irrefl _)
    have hB := (div_sqrt_lt_div_sqrt hb ha hy hx).not.mpr (by rw [h]; exact lt_irrefl _)
    exact le_antisymm (le_of_not_lt hB) (le_of_not_lt hA)

theorem div_sqrt_pos {b y : ℚ} (hb : 0 < b) (hy : 0 < y) :
    (0 : ℝ) < (b : ℝ) / Real.sqrt (y : ℝ) :=
  div_pos (by exact_mod_cast hb) (rsqrt_pos hy)

theorem div_sqrt_neg {a x : ℚ} (ha : a < 0) (hx : 0 < x) :
    (a : ℝ) / Real.sqrt (x : ℝ) < 0 :=
  div_neg_of_neg_of_pos (by exact_mod_cast ha) (rsqrt_pos hx)

theorem cmpFin_spec {a x b y : ℚ} (hx : 0 < x) (hy : 0 < y) :
    (cmpFin a x b y = Ordering.lt ↔
      (a : ℝ) / Real.sqrt (x : ℝ) < (b : ℝ) / Real.sqrt (y : ℝ)) ∧
    (cmpFin a x b y = Ordering.eq ↔
      (a : ℝ) / Real.sqrt (x : ℝ) = (b : ℝ) / Real.sqrt (y : ℝ)) ∧
    (cmpFin a x b y = Ordering.gt ↔
      (b : ℝ) / Real.sqrt (y : ℝ) < (a : ℝ) / Real.sqrt (x : ℝ)) := by
  have e0x : ((0 : ℚ) : ℝ) / Real.sqrt (x : ℝ) = 0 := by simp
  have e0y : ((0 : ℚ) : ℝ) / Real.sqrt (y : ℝ) = 0 := by simp
  unfold cmpFin
  rcases lt_trichotomy a 0 with ha | rfl | ha
  · rw [if_pos ha]
    rcases lt_trichotomy b 0 with hb | rfl | hb
    · rw [if_pos hb]
      have e1 : ((-b : ℚ) : ℝ) / Real.sqrt (y : ℝ) =
          -((b : ℝ) / Real.sqrt (y : ℝ)) := by push_cast; ring
      have e2 : ((-a : ℚ) : ℝ) / Real.sqrt (x : ℝ) =
          -((a : ℝ) / Real.sqrt (x : ℝ)) := by push_cast; ring
      have hnb : (0 : ℚ) < -b := neg_pos.mpr hb
      have hna : (0 : ℚ) < -a := neg_pos.mpr ha
      have HL := div_sqrt_lt_div_sqrt hnb hna hy hx
      rw [e1, e2, neg_lt_neg_iff, neg_sq, neg_sq] at HL
      have HE := div_sqrt_eq_div_sqrt hnb hna hy hx
      rw [e1, e2, neg_inj, neg_sq, neg_sq] at HE
      have HG := div_sqrt_lt_div_sqrt hna hnb hx hy
      rw [e1, e2, neg_lt_neg_iff, neg_sq, neg_sq] at HG
      exact ⟨qcmp_lt_iff.trans HL.symm,
        qcmp_eq_iff.trans (HE.symm.trans eq_comm),
        qcmp_gt_iff.trans HG.symm⟩
    · rw [if_neg (lt_irrefl 0)]
      have hA : (a : ℝ) / Real.sqrt (x : ℝ) < ((0 : ℚ) : ℝ) / Real.sqrt (y : ℝ) := by
        rw [e0y]; exact div_sqrt_neg ha hx
      exact ⟨iff_of_true rfl hA, iff_of_false (by decide) (ne_of_lt hA),
        iff_of_false (by decide) (lt_asymm hA)⟩
    · rw [if_neg (lt_asymm hb)]
      have hA : (a : ℝ) / Real.sqrt (x : ℝ) < (b : ℝ) / Real.sqrt (y : ℝ) :=
        lt_trans (div_sqrt_neg ha hx) (div_sqrt_pos hb hy)
      exact ⟨iff_of_true rfl hA, iff_of_false (by decide) (ne_of_lt hA),
        iff_of_false (by decide) (lt_asymm hA)⟩
  · rw [if_neg (lt_irrefl 0), if_pos rfl]
    rcases lt_trichotomy b 0 with hb | rfl | hb
    · rw [if_pos hb]
      have hA : (b : ℝ) / Real.sqrt (y : ℝ) < ((0 : ℚ) : ℝ) / Real.sqrt (x : ℝ) := by
        rw [e0x]; exact div_sqrt_neg hb hy
      exact ⟨iff_of_false (by decide) (lt_asymm hA),
        iff_of_false (by decide) (Ne.symm (ne_of_lt hA)), iff_of_true rfl hA⟩
    · rw [if_neg (lt_irrefl 0), if_pos rfl]
      refine ⟨iff_of_false (by decide) ?_, iff_of_true rfl (by rw [e0x, e0y]),
        iff_of_false (by decide) ?_⟩
      · rw [e0x, e0y]; exact lt_irrefl 0
      · rw [e0x, e0y]; exact lt_irrefl 0
    · rw [if_neg (lt_asymm hb), if_neg (ne_of_gt hb)]
      have hA : ((0 : ℚ) : ℝ) / Real.sqrt (x : ℝ) < (b : ℝ) / Real.sqrt (y : ℝ) := by
        rw [e0x]; exact div_sqrt_pos hb hy
      exact ⟨iff_of_true rfl hA, iff_of_false (by decide) (ne_of_lt hA),
        iff_of_false (by decide) (lt_asymm hA)⟩
  · rw [if_neg (lt_asymm ha), if_neg (ne_of_gt ha)]
    rcases lt_trichotomy b 0 with hb | rfl | hb
    · rw [if_pos (le_of_lt hb)]
      have hA : (b : ℝ) / Real.sqrt (y : ℝ) < (a : ℝ) / Real.sqrt (x : ℝ) :=
        lt_trans (div_sqrt_neg hb hy) (div_sqrt_pos ha hx)
      exact ⟨iff_of_false (by decide) (lt_asymm hA),
        iff_of_false (by decide) (Ne.symm (ne_of_lt hA)), iff_of_true rfl hA⟩
    · rw [if_pos (le_refl (0 : ℚ))]
      have hA : ((0 : ℚ) : ℝ) / Real.sqrt (y : ℝ) < (a : ℝ) / Real.sqrt (x : ℝ) := by
        rw [e0y]; exact div_sqrt_pos ha hx
      exact ⟨iff_of_false (by decide) (lt_asymm hA),
        iff_of_false (by decide) (Ne.symm (ne_of_lt hA)), iff_of_true rfl hA⟩
    · rw [if_neg (not_le_of_lt hb)]
      have HL := div_sqrt_lt_div_sqrt ha hb hx hy
      have HE := div_sqrt_eq_div_sqrt ha hb hx hy
      have HG := div_sqrt_lt_div_sqrt hb ha hy hx
      exact ⟨qcmp_lt_iff.trans HL.symm, qcmp_eq_iff.trans HE.symm,
        qcmp_gt_iff.trans HG.symm⟩

/-- Well-formedness of similarity keys as produced by `simKey`: NaN, or a
finite value with positive squared denominator.  The infinities cannot occur
because a zero-norm row has zero dot product with every row. -/
def KeyOK : SimVal → Prop
  | SimVal.nan => True
  | SimVal.fin _ x => 0 < x
  | _ => False

theorem dot_nil (ys : List ℚ) : dot [] ys = 0 := by simp [dot]

theorem dot_nil_right (xs : List ℚ) : dot xs [] = 0 := by
  cases xs <;> simp [dot]

theorem dot_cons (x y : ℚ) (xs ys : List ℚ) :
    dot (x :: xs) (y :: ys) = x * y + dot xs ys := by
  simp [dot]

theorem normSq_nonneg (xs : List ℚ) : 0 ≤ normSq xs := by
  induction xs with
  | nil => simp [normSq, dot]
  | cons x xs ih =>
    have : normSq (x :: xs) = x * x + normSq xs := dot_cons x x xs xs
    rw [this]
    exact add_nonneg (mul_self_nonneg x) ih

theorem dot_eq_zero_left : ∀ {xs ys : List ℚ}, normSq xs = 0 → dot xs ys = 0
  | [], ys, _ => dot_nil ys
  | x :: xs, [], _ => dot_nil_right (x :: xs)
  | x :: xs, y :: ys, h => by
    have hx2 : normSq (x :: xs) = x * x + normSq xs := dot_cons x x xs xs
    rw [hx2] at h
    have hz := (add_eq_zero_iff_of_nonneg (mul_self_nonneg x) (normSq_nonneg xs)).mp h
    have hx0 : x = 0 := mul_self_eq_zero.mp hz.1
    rw [dot_cons, hx0, dot_eq_zero_left hz.2, zero_mul, add_zero]

theorem dot_comm : ∀ (xs ys : List ℚ), dot xs ys = dot ys xs
  | [], ys => by rw [dot_nil, dot_nil_right]
  | x :: xs, [] => by rw [dot_nil, dot_nil_right]
  | x :: xs, y :: ys => by rw [dot_cons, dot_cons, mul_comm, dot_comm xs ys]

theorem dot_eq_zero_right {xs ys : List ℚ} (h : normSq ys = 0) : dot xs ys = 0 := by
  rw [dot_comm]; exact dot_eq_zero_left h

theorem simKey_ok (m : Mat) (i j : ℕ) : KeyOK (simKey m i j) := by
  unfold simKey mkSim
  have hni := normSq_nonneg (row m i)
  have hnj := normSq_nonneg (row m j)
  have h1 : ¬(normSq (row m i) < 0 ∨ normSq (row m j) < 0) := by
    rintro (h | h)
    · exact absurd h (not_lt_of_ge hni)
    · exact absurd h (not_lt_of_ge hnj)
  rw [if_neg h1]
  by_cases h2 : normSq (row m i) = 0 ∨ normSq (row m j) = 0
  · rw [if_pos h2]
    have hd0 : dot (row m i) (row m j) = 0 := by
      rcases h2 with h | h
      · exact dot_eq_zero_left h
      · exact dot_eq_zero_right h
    rw [if_pos hd0]
    trivial
  · rw [if_neg h2]
    push_neg at h2
    exact mul_pos (lt_of_le_of_ne hni (Ne.symm h2.1)) (lt_of_le_of_ne hnj (Ne.symm h2.2))

theorem simRVal_simKey (m : Mat) (i j : ℕ) :
    simRVal (simKey m i j) =
      (dot (row m i) (row m j) : ℝ) /
        (Real.sqrt ((normSq (row m i) : ℚ) : ℝ) *
          Real.sqrt ((normSq (row m j) : ℚ) : ℝ)) := by
  unfold simKey mkSim
  have hni := normSq_nonneg (row m i)
  have hnj := normSq_nonneg (row m j)
  have h1 : ¬(normSq (row m i) < 0 ∨ normSq (row m j) < 0) := by
    rintro (h | h)
    · exact absurd h (not_lt_of_ge hni)
    · exact absurd h (not_lt_of_ge hnj)
  rw [if_neg h1]
  by_cases h2 : normSq (row m i) = 0 ∨ normSq (row m j) = 0
  · rw [if_pos h2]
    have hd0 : dot (row m i) (row m j) = 0 := by
      rcases h2 with h | h
      · exact dot_eq_zero_left h
      · exact dot_eq_zero_right h
    rw [if_pos hd0, hd0]
    simp [simRVal]
  · rw [if_neg h2]
    have ecast : ((normSq (row m i) * normSq (row m j) : ℚ) : ℝ) =
        ((normSq (row m i) : ℚ) : ℝ) * ((normSq (row m j) : ℚ) : ℝ) := by push_cast; ring
    simp only [simRVal]
    rw [ecast, Real.sqrt_mul (by exact_mod_cast hni)]

theorem fcmp_some_cases {s t : SimVal} (hs : KeyOK s) (ht : KeyOK t) {o : Ordering}
    (h : fcmp s t = some o) :
    ∃ a x b y, s = SimVal.fin a x ∧ t = SimVal.fin b y ∧ 0 < x ∧ 0 < y ∧
      cmpFin a x b y = o := by
  cases s with
  | nan => simp [fcmp] at h
  | negInf => exact absurd hs (by simp [KeyOK])
  | posInf => exact absurd hs (by simp [KeyOK])
  | fin a x =>
    cases t with
    | nan => simp [fcmp] at h
    | negInf => exact absurd ht (by simp [KeyOK])
    | posInf => exact absurd ht (by simp [KeyOK])
    | fin b y =>
      exact ⟨a, x, b, y, rfl, rfl, hs, ht, by simpa [fcmp] using h⟩

theorem simCmp_reflects {l : List (ℕ × SimVal)} (hok : ∀ p ∈ l, KeyOK p.2) :
    Reflects simCmp (fun p => -(simRVal p.2)) l := by
  intro p hp q hq
  refine ⟨?_, ?_, ?_⟩ <;> intro h
  · obtain ⟨b, y, a, x, hq2, hp2, hy, hx, hc⟩ :=
      fcmp_some_cases (hok q hq) (hok p hp) h
    have hlt := (cmpFin_spec hy hx).1.mp hc
    show -(simRVal p.2) < -(simRVal q.2)
    rw [hp2, hq2]
    simpa [simRVal, neg_lt_neg_iff] using hlt
  · obtain ⟨b, y, a, x, hq2, hp2, hy, hx, hc⟩ :=
      fcmp_some_cases (hok q hq) (hok p hp) h
    have heq := (cmpFin_spec hy hx).2.1.mp hc
    show -(simRVal p.2) = -(simRVal q.2)
    rw [hp2, hq2]
    simp only [simRVal]
    rw [heq]
  · obtain ⟨b, y, a, x, hq2, hp2, hy, hx, hc⟩ :=
      fcmp_some_cases (hok q hq) (hok p hp) h
    have hgt := (cmpFin_spec hy hx).2.2.mp hc
    show -(simRVal q.2) < -(simRVal p.2)
    rw [hp2, hq2]
    simpa [simRVal, neg_lt_neg_iff] using hgt

/-! ## Characterisation of `build_graph_from_features` -/

theorem mapOpt_eq_some {f : α → Option β} :
    ∀ {l : List α} {ys : List β},
      mapOpt f l = some ys ↔ List.Forall₂ (fun a b => f a = some b) l ys
  | [], ys => by
    constructor
    · intro h
      simp only [mapOpt, Option.some_inj] at h
      subst h; exact List.Forall₂.nil
    · intro h; cases h; rfl
  | x :: xs, ys => by
    constructor
    · intro h
      unfold mapOpt at h
      cases hfx : f x with
      | none =>
        cases hm : mapOpt f xs with
        | none => rw [hfx, hm] at h; cases h
        | some ys0 => rw [hfx, hm] at h; cases h
      | some y =>
        cases hm : mapOpt f xs with
        | none => rw [hfx, hm] at h; cases h
        | some ys0 =>
          rw [hfx, hm] at h
          simp only [Option.some_inj] at h
          subst h
          exact List.Forall₂.cons hfx (mapOpt_eq_some.mp hm)
    · intro h
      cases h with
      | cons hfx htail =>
        unfold mapOpt
        rw [hfx, mapOpt_eq_some.mpr htail]

theorem range_get {n i : ℕ} (h1 : i < (List.range n).length) :
    (List.range n).get ⟨i, h1⟩ = i := by
  rw [List.get_eq_getElem, List.getElem_range]

theorem getD_eq_get {l : List γ} {i : ℕ} (d : γ) (h : i < l.length) :
    l.getD i d = l.get ⟨i, h⟩ := by
  rw [List.getD_eq_getElem?_getD, List.getElem?_eq_getElem h, List.get_eq_getElem]
  rfl

theorem filter_ne_range_length : ∀ {n i : ℕ}, i < n →
    ((List.range n).filter (fun j => j ≠ i)).length = n - 1
  | 0, i, h => absurd h (Nat.not_lt_zero i)
  | n + 1, i, h => by
    rw [List.range_succ, List.filter_append]
    rcases Nat.lt_succ_iff_lt_or_eq.mp h with hi | rfl
    · have hne : ([n].filter (fun j => j ≠ i)) = [n] := by
        simp [Ne.symm (Nat.ne_of_lt hi)]
      rw [List.length_append, filter_ne_range_length hi, hne]
      simp only [List.length_singleton]
      omega
    · have hz : ([i].filter (fun j => j ≠ i)) = [] := by simp
      have hall : (List.range i).filter (fun j => j ≠ i) = List.range i := by
        apply List.filter_eq_self.mpr
        intro a ha
        simp [Nat.ne_of_lt (List.mem_range.mp ha)]
      rw [hz, hall, List.append_nil, List.length_range]
      simp

theorem simList_mem {m : Mat} {i : ℕ} {p : ℕ × SimVal} (hp : p ∈ simList m i) :
    p.1 < m.length ∧ p.1 ≠ i ∧ p.2 = simKey m i p.1 := by
  unfold simList at hp
  obtain ⟨j, hj, rfl⟩ := List.mem_map.mp hp
  have hmem := List.mem_filter.mp hj
  refine ⟨List.mem_range.mp hmem.1, ?_, rfl⟩
  simpa using hmem.2

theorem simList_keys_ok (m : Mat) (i : ℕ) : ∀ p ∈ simList m i, KeyOK p.2 := by
  intro p hp
  rw [(simList_mem hp).2.2]
  exact simKey_ok m i p.1

theorem simList_length {m : Mat} {i : ℕ} (hi : i < m.length) :
    (simList m i).length = m.length - 1 := by
  unfold simList
  rw [List.length_map]
  exact filter_ne_range_length hi

theorem simList_nodup_fst (m : Mat) (i : ℕ) : ((simList m i).map Prod.fst).Nodup := by
  unfold simList
  rw [List.map_map]
  have hid : (Prod.fst ∘ fun j => (j, simKey m i j)) = id := rfl
  rw [hid, List.map_id]
  exact List.Nodup.filter _ (List.nodup_range m.length)

theorem pair_sublist_range {a b n : ℕ} (hab : a < b) (hbn : b < n) :
    List.Sublist [a, b] (List.range n) := by
  induction n with
  | zero => exact absurd hbn (Nat.not_lt_zero b)
  | succ n ih =>
    rcases Nat.lt_succ_iff_lt_or_eq.mp hbn with hb | rfl
    · exact (ih hb).trans (by rw [List.range_succ]; exact List.sublist_append_left _ _)
    · rw [List.range_succ]
      exact List.Sublist.append (List.singleton_sublist.mpr (List.mem_range.mpr hab))
        (List.Sublist.refl [b])

theorem pair_sublist_simList {m : Mat} {i j1 j2 : ℕ} (h12 : j1 < j2)
    (hj2 : j2 < m.length) (hne1 : j1 ≠ i) (hne2 : j2 ≠ i) :
    List.Sublist [(j1, simKey m i j1), (j2, simKey m i j2)] (simList m i) := by
  unfold simList
  have h1 : List.Sublist [j1, j2] (List.range m.length) := pair_sublist_range h12 hj2
  have h2 : List.Sublist [j1, j2] ((List.range m.length).filter (fun j => j ≠ i)) := by
    have hf := h1.filter (fun j => decide (j ≠ i))
    rwa [show ([j1, j2].filter (fun j => decide (j ≠ i))) = [j1, j2] by
      simp [hne1, hne2]] at hf
  have h3 := h2.map (fun j => (j, simKey m i j))
  simpa using h3

theorem build_graph_some_elim {m : Mat} {k : ℕ} {g : List (List ℕ)}
    (hg : build_graph_from_features m k = some g) :
    g.length = m.length ∧
    ∀ i, i < m.length →
      ∃ st, sortOpt simCmp (simList m i) = some st ∧
        g.getD i [] = (st.take k).map Prod.fst := by
  unfold build_graph_from_features at hg
  have hf := mapOpt_eq_some.mp hg
  have hlen : g.length = m.length := by
    have hl := hf.length_eq
    simpa using hl.symm
  refine ⟨hlen, ?_⟩
  intro i hi
  have h1 : i < (List.range m.length).length := by simpa using hi
  have h2 : i < g.length := by rw [hlen]; exact hi
  have hR := hf.get h1 h2
  rw [range_get] at hR
  cases hsort : sortOpt simCmp (simList m i) with
  | none => rw [hsort] at hR; cases hR
  | some st =>
    rw [hsort] at hR
    simp only [Option.map_some', Option.some_inj] at hR
    exact ⟨st, rfl, by rw [getD_eq_get [] h2, ← hR]⟩

theorem pair_sublist_take {γ : Type*} :
    ∀ {s : List γ} {k : ℕ} {a b : γ}, s.Nodup →
      List.Sublist [a, b] s → b ∈ s.take k → List.Sublist [a, b] (s.take k)
  | [], _, a, b, _, hab, _ => by cases hab
  | c :: s, 0, a, b, _, _, hb => by simp at hb
  | c :: s, k + 1, a, b, hnd, hab, hb => by
    rw [List.take_succ_cons] at hb ⊢
    rw [List.nodup_cons] at hnd
    cases hab with
    | cons₂ _ hbs =>
      have hbs' : b ∈ s := List.singleton_sublist.mp hbs
      have hbc : b ≠ c := fun h => hnd.1 (h ▸ hbs')
      have hbtake : b ∈ s.take k := by
        rcases List.mem_cons.mp hb with h | h
        · exact absurd h hbc
        · exact h
      exact List.Sublist.cons₂ c (List.singleton_sublist.mpr hbtake)
    | cons _ hab2 =>
      have hbs' : b ∈ s := hab2.subset (by simp)
      have hbc : b ≠ c := fun h => hnd.1 (h ▸ hbs')
      have hbtake : b ∈ s.take k := by
        rcases List.mem_cons.mp hb with h | h
        · exact absurd h hbc
        · exact h
      exact (pair_sublist_take hnd.2 hab2 hbtake).cons c

/-! ## Claims about the similarity-graph builder -/

/-- Claim C2: for every feature matrix with `n` rows and every `k`,
`build_graph_from_features` returns, for every row `i`, a neighbor list of
length exactly `min k (n-1)`; in particular, when `k` is at least `n-1` it
returns all `n-1` other rows (every other row index `j` is a member), with
no padding and no error.  The length bound holds for every `k`; only the
all-others conjunct is conditioned on `n - 1 ≤ k`.  Panic-free runs
(`some g`); the NaN/panic case is the subject of claim C1. -/
theorem C2_topk_bound (m : Mat) (k : ℕ) (g : List (List ℕ))
    (hg : build_graph_from_features m k = some g) (i : ℕ) (hi : i < m.length) :
    g.length = m.length ∧
    (g.getD i []).length = min k (m.length - 1) ∧
    (m.length - 1 ≤ k → ∀ j, j < m.length → j ≠ i → j ∈ g.getD i []) := by
  obtain ⟨hlen, hrow⟩ := build_graph_some_elim hg
  obtain ⟨st, hsort, hgi⟩ := hrow i hi
  have hstlen : st.length = m.length - 1 := by
    rw [(sortOpt_perm hsort).length_eq, simList_length hi]
  refine ⟨hlen, ?_, ?_⟩
  · rw [hgi, List.length_map, List.length_take, hstlen]
  · intro hk j hj hne
    have htake : st.take k = st := List.take_of_length_le (by rw [hstlen]; exact hk)
    rw [hgi, htake]
    have hmem : (j, simKey m i j) ∈ simList m i := by
      unfold simList
      refine List.mem_map.mpr ⟨j, ?_, rfl⟩
      exact List.mem_filter.mpr ⟨List.mem_range.mpr hj, by simpa using hne⟩
    exact List.mem_map.mpr ⟨(j, simKey m i j), (sortOpt_perm hsort).mem_iff.mpr hmem, rfl⟩

theorem C2_topk_bound_witness :
    ([[1], [0], [0]] : List (List ℕ)).length = ([[(1 : ℚ)], [2], [3]] : Mat).length ∧
    (([[1], [0], [0]] : List (List ℕ)).getD 0 []).length =
      min 1 (([[(1 : ℚ)], [2], [3]] : Mat).length - 1) ∧
    (([[(1 : ℚ)], [2], [3]] : Mat).length - 1 ≤ 1 →
      ∀ j, j < ([[(1 : ℚ)], [2], [3]] : Mat).length → j ≠ 0 →
        j ∈ ([[1], [0], [0]] : List (List ℕ)).getD 0 []) :=
  C2_topk_bound [[(1 : ℚ)], [2], [3]] 1 [[1], [0], [0]]
    (by with_unfolding_all decide) 0 (by decide)

/-- Claim C6: for every feature matrix and every `k`, the neighbor list
produced for row `i` never contains `i` itself (panic-free runs). -/
theorem C6_self_exclusion (m : Mat) (k : ℕ) (g : List (List ℕ))
    (hg : build_graph_from_features m k = some g) (i : ℕ) (hi : i < m.length) :
    i ∉ g.getD i [] := by
  obtain ⟨hlen, hrow⟩ := build_graph_some_elim hg
  obtain ⟨st, hsort, hgi⟩ := hrow i hi
  rw [hgi]
  intro hmem
  obtain ⟨p, hp, hp1⟩ := List.mem_map.mp hmem
  have hpl : p ∈ simList m i := (sortOpt_perm hsort).mem_iff.mp (List.mem_of_mem_take hp)
  exact (simList_mem hpl).2.1 hp1

theorem C6_self_exclusion_witness : 0 ∉ ([[1], [0]] : List (List ℕ)).getD 0 [] :=
  C6_self_exclusion [[(1 : ℚ)], [2]] 5 [[1], [0]] (by with_unfolding_all decide) 0 (by decide)

/-- Claim C3: for every feature matrix and every row `i`, the neighbor list
produced for `i` is sorted in non-increasing order of cosine similarity to
row `i`, cosine similarity being `dot(row_i, row_j) / (norm i * norm j)`
with `norm r = √(normSq r)` (panic-free runs). -/
theorem C3_ranking_correctness (m : Mat) (k : ℕ) (g : List (List ℕ))
    (hg : build_graph_from_features m k = some g) (i : ℕ) (hi : i < m.length) :
    (g.getD i []).Pairwise (fun j1 j2 =>
      (dot (row m i) (row m j2) : ℝ) /
          (Real.sqrt ((normSq (row m i) : ℚ) : ℝ) *
            Real.sqrt ((normSq (row m j2) : ℚ) : ℝ)) ≤
      (dot (row m i) (row m j1) : ℝ) /
          (Real.sqrt ((normSq (row m i) : ℚ) : ℝ) *
            Real.sqrt ((normSq (row m j1) : ℚ) : ℝ))) := by
  obtain ⟨hlen, hrow⟩ := build_graph_some_elim hg
  obtain ⟨st, hsort, hgi⟩ := hrow i hi
  rw [hgi, List.pairwise_map]
  have hrefl : Reflects simCmp (fun p => -(simRVal p.2)) (simList m i) :=
    simCmp_reflects (simList_keys_ok m i)
  have hpw : st.Pairwise (fun a b => -(simRVal a.2) ≤ -(simRVal b.2)) :=
    sortOpt_pairwise hsort hrefl
  refine List.Pairwise.imp_of_mem ?_ (hpw.sublist (List.take_sublist k st))
  intro p q hp hq hR
  have hps : p ∈ simList m i := (sortOpt_perm hsort).mem_iff.mp (List.mem_of_mem_take hp)
  have hqs : q ∈ simList m i := (sortOpt_perm hsort).mem_iff.mp (List.mem_of_mem_take hq)
  have hle : simRVal q.2 ≤ simRVal p.2 := by
    have := neg_le_neg_iff.mp hR
    exact this
  rw [(simList_mem hps).2.2, (simList_mem hqs).2.2, simRVal_simKey, simRVal_simKey] at hle
  exact hle

theorem C3_ranking_correctness_witness :
    (([[1, 2], [0, 2], [0, 1]] : List (List ℕ)).getD 0 []).Pairwise (fun j1 j2 =>
      (dot (row [[(1 : ℚ)], [2], [3]] 0) (row [[(1 : ℚ)], [2], [3]] j2) : ℝ) /
          (Real.sqrt ((normSq (row [[(1 : ℚ)], [2], [3]] 0) : ℚ) : ℝ) *
            Real.sqrt ((normSq (row [[(1 : ℚ)], [2], [3]] j2) : ℚ) : ℝ)) ≤
      (dot (row [[(1 : ℚ)], [2], [3]] 0) (row [[(1 : ℚ)], [2], [3]] j1) : ℝ) /
          (Real.sqrt ((normSq (row [[(1 : ℚ)], [2], [3]] 0) : ℚ) : ℝ) *
            Real.sqrt ((normSq (row [[(1 : ℚ)], [2], [3]] j1) : ℚ) : ℝ))) :=
  C3_ranking_correctness [[(1 : ℚ)], [2], [3]] 2 [[1, 2], [0, 2], [0, 1]]
    (by with_unfolding_all decide) 0 (by decide)

/-- Claim C10: ties in cosine similarity are broken by ascending row index —
whenever candidates `j1 < j2` compare exactly equal (a defined, `eq`
comparison, i.e. no NaN), `j1` is ranked before `j2` whenever `j2` appears
at all, because candidates are enumerated in ascending index order and the
sort is stable.  (`List.Sublist [j1, j2]` states that `j1` occurs before
`j2` in the adjacency list.) -/
theorem C10_tie_break (m : Mat) (k : ℕ) (g : List (List ℕ))
    (hg : build_graph_from_features m k = some g) (i j1 j2 : ℕ)
    (hi : i < m.length) (h12 : j1 < j2) (hj2 : j2 < m.length)
    (hne1 : j1 ≠ i) (hne2 : j2 ≠ i)
    (htie : fcmp (simKey m i j1) (simKey m i j2) = some Ordering.eq)
    (hmem : j2 ∈ g.getD i []) :
    List.Sublist [j1, j2] (g.getD i []) := by
  obtain ⟨hlen, hrow⟩ := build_graph_some_elim hg
  obtain ⟨st, hsort, hgi⟩ := hrow i hi
  have hrefl : Reflects simCmp (fun p => -(simRVal p.2)) (simList m i) :=
    simCmp_reflects (simList_keys_ok m i)
  obtain ⟨a, x, b, y, h1, h2, hx, hy, hc⟩ :=
    fcmp_some_cases (simKey_ok m i j1) (simKey_ok m i j2) htie
  have hveq : simRVal (simKey m i j1) = simRVal (simKey m i j2) := by
    rw [h1, h2]
    simpa [simRVal] using (cmpFin_spec hx hy).2.1.mp hc
  have hpair := pair_sublist_simList h12 hj2 hne1 hne2
  have hstable : List.Sublist [(j1, simKey m i j1), (j2, simKey m i j2)] st :=
    sortOpt_tie_stable hsort hrefl hpair (by simpa using congrArg Neg.neg hveq)
  have hmap : List.Sublist [j1, j2] (st.map Prod.fst) := by
    simpa using hstable.map Prod.fst
  have hnd : (st.map Prod.fst).Nodup :=
    (((sortOpt_perm hsort).map Prod.fst).nodup_iff).mpr (simList_nodup_fst m i)
  have hmem2 : j2 ∈ (st.map Prod.fst).take k := by
    rw [← List.map_take]
    rw [hgi] at hmem
    exact hmem
  have := pair_sublist_take hnd hmap hmem2
  rw [← List.map_take] at this
  rw [hgi]
  exact this

theorem C10_tie_break_witness :
    List.Sublist [1, 2] (([[1, 2], [0, 2], [0, 1]] : List (List ℕ)).getD 0 []) :=
  C10_tie_break [[(1 : ℚ)], [2], [3]] 2 [[1, 2], [0, 2], [0, 1]]
    (by with_unfolding_all decide) 0 1 2 (by decide) (by decide) (by decide)
    (by decide) (by decide) (by with_unfolding_all decide) (by decide)

/-! ## Model of `load_and_preprocess` (src/preprocessing.rs)

The CSV reader (`csv` crate) is the external collaborator: the model takes
the parsed header row and data records directly.  A cell carries its raw
string (used by categorical columns) and the result of
`str::parse::<f64>()` on it (used by numeric columns; `none` = parse
error).  Parseable numeric literals are modelled as exact rationals. -/

/-- One CSV field as the program sees it. -/
structure Cell where
  str : String
  num : Option ℚ
deriving DecidableEq

/-- Outcome of a fallible routine: a Rust panic (process abort), a
recoverable `Err` propagated by `?`, or a normal return. -/
inductive RunResult (γ : Type) where
  | panicked (msg : String) : RunResult γ
  | error (msg : String) : RunResult γ
  | ok (a : γ) : RunResult γ
deriving DecidableEq

/-- Sequencing of fallible steps: panics and errors abort. -/
def RunResult.bind {γ δ : Type} : RunResult γ → (γ → RunResult δ) → RunResult δ
  | RunResult.panicked m, _ => RunResult.panicked m
  | RunResult.error m, _ => RunResult.error m
  | RunResult.ok a, f => f a

/-- A loop over a list that aborts at the first panic or error. -/
def mapRR {γ δ : Type} (f : γ → RunResult δ) : List γ → RunResult (List δ)
  | [] => RunResult.ok []
  | x :: xs =>
    RunResult.bind (f x) (fun y =>
      RunResult.bind (mapRR f xs) (fun ys => RunResult.ok (y :: ys)))

/-- `header_map[col]` for the map built by
`headers.iter().enumerate().map(|(i, h)| (h, i)).collect()`: for duplicate
header names the later insertion wins; `none` is a missing key, on which the
`Index` operator panics. -/
def headerIdx (headers : List String) (col : String) : Option ℕ :=
  (headers.enum.reverse.find? (fun p => p.2 = col)).map Prod.fst

/-- The numeric-column loop body shared by both passes: for each requested
numeric column in order, look up its index (a missing key panics), fetch the
field (an out-of-range index panics) and parse it (a parse failure is a
recoverable error propagated by `?`). -/
def parseRowNumerics (headers : List String) : List String → List Cell → RunResult (List ℚ)
  | [], _ => RunResult.ok []
  | c :: cs, rec =>
    match headerIdx headers c with
    | none => RunResult.panicked "key not found in header map"
    | some idx =>
      match rec.get? idx with
      | none => RunResult.panicked "record field index out of bounds"
      | some cell =>
        match cell.num with
        | none => RunResult.error "malformed numeric value"
        | some v =>
          RunResult.bind (parseRowNumerics headers cs rec)
            (fun vs => RunResult.ok (v :: vs))

/-- The categorical-column loop body: index lookup (panics on a missing
key), field fetch (panics out of range), raw string value. -/
def parseRowCats (headers : List String) : List String → List Cell → RunResult (List String)
  | [], _ => RunResult.ok []
  | c :: cs, rec =>
    match headerIdx headers c with
    | none => RunResult.panicked "key not found in header map"
    | some idx =>
      match rec.get? idx with
      | none => RunResult.panicked "record field index out of bounds"
      | some cell =>
        RunResult.bind (parseRowCats headers cs rec)
          (fun vs => RunResult.ok (cell.str :: vs))

/-- Per-record processing, in source order: numeric columns first, then
categorical columns. -/
def parseRow (headers ncols ccols : List String) (rec : List Cell) :
    RunResult (List ℚ × List String) :=
  RunResult.bind (parseRowNumerics headers ncols rec) (fun ns =>
    RunResult.bind (parseRowCats headers ccols rec) (fun cs =>
      RunResult.ok (ns, cs)))

/-- The statistics pass over all records. -/
def readRows (headers ncols ccols : List String) (recs : List (List Cell)) :
    RunResult (List (List ℚ × List String)) :=
  mapRR (parseRow headers ncols ccols) recs

/-- The running minimum of the source (`mins[i] = ∞`, then
`if v < mins[i] { mins[i] = v }` per row): for a nonempty column this is the
plain minimum; the `[]` case never feeds a scaled value (no rows). -/
def listMin : List ℚ → ℚ
  | [] => 0
  | x :: xs => xs.foldl min x

/-- The running maximum (`maxs[i] = -∞`, `if v > maxs[i]`). -/
def listMax : List ℚ → ℚ
  | [] => 0
  | x :: xs => xs.foldl max x

/-- Column `j` of the parsed numeric values. -/
def numColumn (rows : List (List ℚ × List String)) (j : ℕ) : List ℚ :=
  rows.map (fun r => r.1.getD j 0)

/-- Column `j` of the observed categorical strings. -/
def catColumn (rows : List (List ℚ × List String)) (j : ℕ) : List String :=
  rows.map (fun r => r.2.getD j "")

/-- The frozen one-hot vocabulary of categorical column `j`: the distinct
string values observed across the whole dataset (`HashSet` accumulation),
sorted lexicographically (`vec.sort()`). -/
def vocab (rows : List (List ℚ × List String)) (j : ℕ) : List String :=
  List.insertionSort (fun a b => a ≤ b) (catColumn rows j).dedup

/-- Model of `load_and_preprocess`.  Pass 1 (`readRows`) collects per-record
numeric values and categorical strings, aborting on a missing column
(HashMap index panic) or a numeric parse failure (`?`).  The vocabularies
are then frozen; `category_vecs[col]` panics when there are no records and a
categorical column is requested, because the key was never inserted.  Pass 2
re-reads the same records and emits, per row, the min-max scaled numerics
(IEEE division semantics, `fdiv` — a constant column yields NaN) followed by
the one-hot blocks; the writes cover the preallocated zero row exactly, so
the row equals this concatenation. -/
def load_and_preprocess (headers : List String) (recs : List (List Cell))
    (ncols ccols : List String) : RunResult (List (List F64)) :=
  RunResult.bind (readRows headers ncols ccols recs) (fun rows =>
    if recs = [] ∧ ccols ≠ [] then
      RunResult.panicked "key not found in category map"
    else
      mapRR (fun rec =>
        RunResult.bind (parseRow headers ncols ccols rec) (fun r =>
          RunResult.ok (
            (List.range ncols.length).map (fun j =>
              fdiv (r.1.getD j 0 - listMin (numColumn rows j))
                (listMax (numColumn rows j) - listMin (numColumn rows j)))
            ++ List.flatten ((List.range ccols.length).map (fun j =>
                (vocab rows j).map (fun cat =>
                  if r.2.getD j "" = cat then F64.val 1 else F64.val 0))))))
        recs)

-- sanity check: Scenario B of the spec (one numeric, one categorical column)
example :
    load_and_preprocess ["p", "b"]
      [[Cell.mk "1.0" (some 1), Cell.mk "A" none],
       [Cell.mk "2.0" (some 2), Cell.mk "B" none]] ["p"] ["b"] =
    RunResult.ok
      [[F64.val 0, F64.val 1, F64.val 0],
       [F64.val 1, F64.val 0, F64.val 1]] := by with_unfolding_all decide

-- sanity check: a constant numeric column silently yields NaN entries
example :
    load_and_preprocess ["a"] [[Cell.mk "1.0" (some 1)], [Cell.mk "1.0" (some 1)]]
      ["a"] [] =
    RunResult.ok [[F64.nan], [F64.nan]] := by with_unfolding_all decide

-- sanity check: a missing column panics at the first record, no "column
-- not found" error is returned
example :
    load_and_preprocess ["a"] [[Cell.mk "1.0" (some 1)]] ["b"] [] =
    RunResult.panicked "key not found in header map" := by with_unfolding_all decide

/-! ## Model of `Graph` (src/graph.rs) and `recommend` (src/main.rs) -/

/-- Read-only wrapper of an adjacency list. -/
structure Graph where
  adjacency : List (List ℕ)

/-- `Graph::neighbors`: `self.adjacency.get(node)`, an explicit `Option` —
`none` for an out-of-range row index, never a fabricated empty list. -/
def Graph.neighbors (g : Graph) (node : ℕ) : Option (List ℕ) :=
  g.adjacency.get? node

/-- `recommend`: the first `k` stored neighbors of `node`, or the empty list
when the node has no stored adjacency (`unwrap_or_default`). -/
def recommend (g : Graph) (node k : ℕ) : List ℕ :=
  ((g.neighbors node).map (fun neigh => neigh.take k)).getD []

/-! ## Claims about error handling and lookups -/

/-- Claim C1 (refuted — code bug): the pipeline does not handle degenerate
numeric values by an explicit policy.  Evaluating the model: a constant
numeric column makes `load_and_preprocess` silently write NaN into the
returned matrix (`(v - min) / (max - min) = 0/0`), and a zero-norm feature
row makes `build_graph_from_features` panic (modelled `none`), because
`partial_cmp` of a NaN similarity is `None` and gets `unwrap()`ed inside
`sort_by`. -/
theorem C1_degenerate_nan_code_bug :
    load_and_preprocess ["a"]
        [[Cell.mk "1.0" (some 1)], [Cell.mk "1.0" (some 1)]] ["a"] [] =
      RunResult.ok [[F64.nan], [F64.nan]] ∧
    build_graph_from_features [[0, 0], [1, 0], [0, 1]] 1 = none :=
  ⟨by with_unfolding_all decide, by with_unfolding_all decide⟩

/-- Claim C8 (refuted — code bug): a missing requested column does not fail
fast with a "column not found" error.  `header_map[col]` is a panicking map
index evaluated while processing the first record, so the code panics
instead of returning an error; and with zero data records the statistics
loop never runs, the missing column goes undetected, and an empty matrix is
returned successfully. -/
theorem C8_missing_column_code_bug :
    load_and_preprocess ["a"] [[Cell.mk "1.0" (some 1)]] ["b"] [] =
      RunResult.panicked "key not found in header map" ∧
    load_and_preprocess ["a"] [] ["b"] [] = RunResult.ok [] :=
  ⟨by with_unfolding_all decide, by with_unfolding_all decide⟩

/-- Claim C9: for every `Graph` and every row index with no stored
adjacency entry, the neighbor lookup returns an explicit not-found
(`none`), and `recommend` for such a node returns the empty sequence,
never an error that halts the caller. -/
theorem C9_out_of_range_lookup (g : Graph) (node k : ℕ)
    (h : g.adjacency.length ≤ node) :
    g.neighbors node = none ∧ recommend g node k = [] := by
  have hn : g.neighbors node = none := by
    unfold Graph.neighbors
    exact List.get?_eq_none.mpr h
  exact ⟨hn, by unfold recommend; rw [hn]; rfl⟩

theorem C9_out_of_range_lookup_witness :
    (Graph.mk [[1], [0]]).neighbors 7 = none ∧
    recommend (Graph.mk [[1], [0]]) 7 3 = [] :=
  C9_out_of_range_lookup (Graph.mk [[1], [0]]) 7 3 (by decide)

/-! ## Characterisation of `load_and_preprocess` -/

theorem bind_eq_ok {γ δ : Type} {x : RunResult γ} {f : γ → RunResult δ} {y : δ} :
    RunResult.bind x f = RunResult.ok y ↔
      ∃ a, x = RunResult.ok a ∧ f a = RunResult.ok y := by
  cases x <;> simp [RunResult.bind]

theorem mapRR_eq_ok {γ δ : Type} {f : γ → RunResult δ} :
    ∀ {l : List γ} {ys : List δ},
      mapRR f l = RunResult.ok ys ↔
        List.Forall₂ (fun a b => f a = RunResult.ok b) l ys
  | [], ys => by
    constructor
    · intro h
      simp only [mapRR] at h
      cases h
      exact List.Forall₂.nil
    · intro h; cases h; rfl
  | x :: xs, ys => by
    constructor
    · intro h
      simp only [mapRR] at h
      obtain ⟨y, hy, h2⟩ := bind_eq_ok.mp h
      obtain ⟨ys0, hys0, h3⟩ := bind_eq_ok.mp h2
      cases h3
      exact List.Forall₂.cons hy (mapRR_eq_ok.mp hys0)
    · intro h
      cases h with
      | cons hfx htail =>
        simp only [mapRR]
        rw [hfx, mapRR_eq_ok.mpr htail]
        rfl

theorem getD_append_left {γ : Type*} {l1 l2 : List γ} {i : ℕ} (h : i < l1.length)
    (d : γ) : (l1 ++ l2).getD i d = l1.getD i d := by
  rw [List.getD_eq_getElem?_getD, List.getD_eq_getElem?_getD,
    List.getElem?_append, if_pos h]

theorem map_range_getD {γ : Type*} (f : ℕ → γ) {n j : ℕ} (h : j < n) (d : γ) :
    (((List.range n).map f).getD j d) = f j := by
  rw [List.getD_eq_getElem?_getD, List.getElem?_map, List.getElem?_range h]
  rfl

theorem foldl_min_le_init : ∀ (xs : List ℚ) (a : ℚ), xs.foldl min a ≤ a
  | [], a => le_refl a
  | x :: xs, a => (foldl_min_le_init xs (min a x)).trans (min_le_left a x)

theorem foldl_min_le_mem : ∀ (xs : List ℚ) (a : ℚ) {v : ℚ}, v ∈ xs → xs.foldl min a ≤ v
  | x :: xs, a, v, hv => by
    rcases List.mem_cons.mp hv with rfl | hv
    · exact (foldl_min_le_init xs (min a v)).trans (min_le_right a v)
    · exact foldl_min_le_mem xs (min a x) hv

theorem listMin_le {l : List ℚ} {v : ℚ} (hv : v ∈ l) : listMin l ≤ v := by
  cases l with
  | nil => cases hv
  | cons x xs =>
    rcases List.mem_cons.mp hv with rfl | hv2
    · exact foldl_min_le_init xs v
    · exact foldl_min_le_mem xs x hv2

theorem le_foldl_max_init : ∀ (xs : List ℚ) (a : ℚ), a ≤ xs.foldl max a
  | [], a => le_refl a
  | x :: xs, a => (le_max_left a x).trans (le_foldl_max_init xs (max a x))

theorem le_foldl_max_mem : ∀ (xs : List ℚ) (a : ℚ) {v : ℚ}, v ∈ xs → v ≤ xs.foldl max a
  | x :: xs, a, v, hv => by
    rcases List.mem_cons.mp hv with rfl | hv
    · exact (le_max_right a v).trans (le_foldl_max_init xs (max a v))
    · exact le_foldl_max_mem xs (max a x) hv

theorem le_listMax {l : List ℚ} {v : ℚ} (hv : v ∈ l) : v ≤ listMax l := by
  cases l with
  | nil => cases hv
  | cons x xs =>
    rcases List.mem_cons.mp hv with rfl | hv2
    · exact le_foldl_max_init xs v
    · exact le_foldl_max_mem xs x hv2

theorem load_ok_elim {headers : List String} {recs : List (List Cell)}
    {ncols ccols : List String} {mat : List (List F64)}
    {rows : List (List ℚ × List String)}
    (hload : load_and_preprocess headers recs ncols ccols = RunResult.ok mat)
    (hrows : readRows headers ncols ccols recs = RunResult.ok rows) :
    mat.length = recs.length ∧ rows.length = recs.length ∧
    ∀ i, i < recs.length →
      mat.getD i [] =
        (List.range ncols.length).map (fun j =>
          fdiv ((rows.getD i ([], [])).1.getD j 0 - listMin (numColumn rows j))
            (listMax (numColumn rows j) - listMin (numColumn rows j)))
        ++ List.flatten ((List.range ccols.length).map (fun j =>
            (vocab rows j).map (fun cat =>
              if (rows.getD i ([], [])).2.getD j "" = cat then F64.val 1
              else F64.val 0))) := by
  unfold load_and_preprocess at hload
  rw [hrows] at hload
  simp only [RunResult.bind] at hload
  by_cases hcond : recs = [] ∧ ccols ≠ []
  · rw [if_pos hcond] at hload; cases hload
  · rw [if_neg hcond] at hload
    unfold readRows at hrows
    have hf1 := mapRR_eq_ok.mp hrows
    have hf2 := mapRR_eq_ok.mp hload
    have hrlen : rows.length = recs.length := by simpa using hf1.length_eq.symm
    have hmlen : mat.length = recs.length := by simpa using hf2.length_eq.symm
    refine ⟨hmlen, hrlen, ?_⟩
    intro i hi
    have h1 : i < recs.length := hi
    have h2 : i < mat.length := by rw [hmlen]; exact hi
    have h3 : i < rows.length := by rw [hrlen]; exact hi
    have e2 := hf2.get h1 h2
    have e1 := hf1.get h1 h3
    rw [e1] at e2
    simp only [RunResult.bind, RunResult.ok.injEq] at e2
    rw [getD_eq_get [] h2, ← e2, getD_eq_get ([], []) h3]

/-! ## Claims about the feature-matrix builder -/

/-- Claim C7: the matrix returned by `load_and_preprocess` has exactly as
many rows as the input dataset, and every row has exactly
`|numeric_cols| + Σ (distinct-category count)` entries. -/
theorem C7_shape (headers : List String) (recs : List (List Cell))
    (ncols ccols : List String) (mat : List (List F64))
    (rows : List (List ℚ × List String))
    (hload : load_and_preprocess headers recs ncols ccols = RunResult.ok mat)
    (hrows : readRows headers ncols ccols recs = RunResult.ok rows)
    (i : ℕ) (hi : i < mat.length) :
    mat.length = recs.length ∧
    (mat.getD i []).length =
      ncols.length +
        ((List.range ccols.length).map
          (fun j => (catColumn rows j).dedup.length)).sum := by
  obtain ⟨hlen, hrlen, hbody⟩ := load_ok_elim hload hrows
  refine ⟨hlen, ?_⟩
  rw [hbody i (hlen ▸ hi)]
  rw [List.length_append, List.length_map, List.length_range, List.length_flatten]
  congr 1
  rw [List.map_map]
  congr 1
  apply List.map_congr_left
  intro j _
  show ((vocab rows j).map _).length = (catColumn rows j).dedup.length
  rw [List.length_map]
  exact (List.perm_insertionSort _ _).length_eq

theorem C7_shape_witness :
    ([[F64.val 0, F64.val 1, F64.val 0], [F64.val 1, F64.val 0, F64.val 1]] :
        List (List F64)).length = 2 ∧
    (([[F64.val 0, F64.val 1, F64.val 0], [F64.val 1, F64.val 0, F64.val 1]] :
        List (List F64)).getD 0 []).length =
      (["p"] : List String).length +
        ((List.range (["b"] : List String).length).map
          (fun j => (catColumn [([1], ["A"]), ([2], ["B"])] j).dedup.length)).sum :=
  C7_shape ["p", "b"]
    [[Cell.mk "1.0" (some 1), Cell.mk "A" none],
     [Cell.mk "2.0" (some 2), Cell.mk "B" none]]
    ["p"] ["b"]
    [[F64.val 0, F64.val 1, F64.val 0], [F64.val 1, F64.val 0, F64.val 1]]
    [([1], ["A"]), ([2], ["B"])]
    (by with_unfolding_all decide) (by with_unfolding_all decide) 0 (by decide)

/-- Claim C4: for every numeric column whose observed maximum exceeds its
observed minimum, every scaled value written by `load_and_preprocess` is a
finite value in `[0, 1]`; a row holding the column minimum scales to exactly
`0` and a row holding the column maximum to exactly `1`. -/
theorem C4_normalization_bounds (headers : List String) (recs : List (List Cell))
    (ncols ccols : List String) (mat : List (List F64))
    (rows : List (List ℚ × List String))
    (hload : load_and_preprocess headers recs ncols ccols = RunResult.ok mat)
    (hrows : readRows headers ncols ccols recs = RunResult.ok rows)
    (j : ℕ) (hj : j < ncols.length)
    (hlt : listMin (numColumn rows j) < listMax (numColumn rows j))
    (i : ℕ) (hi : i < mat.length) :
    ∃ q : ℚ,
      (mat.getD i []).getD j F64.nan = F64.val q ∧ 0 ≤ q ∧ q ≤ 1 ∧
      ((rows.getD i ([], [])).1.getD j 0 = listMin (numColumn rows j) → q = 0) ∧
      ((rows.getD i ([], [])).1.getD j 0 = listMax (numColumn rows j) → q = 1) := by
  obtain ⟨hlen, hrlen, hbody⟩ := load_ok_elim hload hrows
  have hi' : i < recs.length := hlen ▸ hi
  rw [hbody i hi']
  rw [getD_append_left (by simpa using hj), map_range_getD _ hj]
  have hpos : (0 : ℚ) < listMax (numColumn rows j) - listMin (numColumn rows j) :=
    sub_pos.mpr hlt
  have hne : listMax (numColumn rows j) - listMin (numColumn rows j) ≠ 0 :=
    ne_of_gt hpos
  have hvmem : (rows.getD i ([], [])).1.getD j 0 ∈ numColumn rows j := by
    unfold numColumn
    refine List.mem_map.mpr ⟨rows.getD i ([], []), ?_, rfl⟩
    have h3 : i < rows.length := by rw [hrlen]; exact hi'
    rw [getD_eq_get ([], []) h3]
    exact List.get_mem rows i h3
  refine ⟨((rows.getD i ([], [])).1.getD j 0 - listMin (numColumn rows j)) /
      (listMax (numColumn rows j) - listMin (numColumn rows j)), ?_, ?_, ?_, ?_, ?_⟩
  · unfold fdiv; rw [if_neg hne]
  · exact div_nonneg (sub_nonneg.mpr (listMin_le hvmem)) (le_of_lt hpos)
  · rw [div_le_one hpos]
    exact sub_le_sub_right (le_listMax hvmem) _
  · intro h; rw [h, sub_self, zero_div]
  · intro h; rw [h]; exact div_self hne

theorem C4_normalization_bounds_witness :
    ∃ q : ℚ,
      (([[F64.val 0, F64.val 1, F64.val 0], [F64.val 1, F64.val 0, F64.val 1]] :
          List (List F64)).getD 0 []).getD 0 F64.nan = F64.val q ∧
      0 ≤ q ∧ q ≤ 1 ∧
      ((([([1], ["A"]), ([2], ["B"])] :
          List (List ℚ × List String)).getD 0 ([], [])).1.getD 0 0 =
          listMin (numColumn [([1], ["A"]), ([2], ["B"])] 0) → q = 0) ∧
      ((([([1], ["A"]), ([2], ["B"])] :
          List (List ℚ × List String)).getD 0 ([], [])).1.getD 0 0 =
          listMax (numColumn [([1], ["A"]), ([2], ["B"])] 0) → q = 1) :=
  C4_normalization_bounds ["p", "b"]
    [[Cell.mk "1.0" (some 1), Cell.mk "A" none],
     [Cell.mk "2.0" (some 2), Cell.mk "B" none]]
    ["p"] ["b"]
    [[F64.val 0, F64.val 1, F64.val 0], [F64.val 1, F64.val 0, F64.val 1]]
    [([1], ["A"]), ([2], ["B"])]
    (by with_unfolding_all decide) (by with_unfolding_all decide)
    0 (by decide) (by with_unfolding_all decide) 0 (by decide)

theorem flatten_extract {γ : Type*} (f : ℕ → List γ) {n j : ℕ} (h : j < n) :
    ((List.flatten ((List.range n).map f)).drop
        (((List.range j).map (fun t => (f t).length)).sum)).take (f j).length = f j := by
  have hn : n = j + (n - j) := (Nat.add_sub_cancel' (le_of_lt h)).symm
  rw [hn, List.range_add, List.map_append, List.flatten_append]
  have hlen : (List.flatten ((List.range j).map f)).length =
      ((List.range j).map (fun t => (f t).length)).sum := by
    rw [List.length_flatten, List.map_map]
    rfl
  rw [List.drop_left' hlen]
  have hnj : n - j = (n - j - 1) + 1 := (Nat.succ_pred_eq_of_pos (by omega)).symm
  rw [hnj, List.range_succ_eq_map, List.map_cons, List.map_cons, List.flatten_cons]
  simp only [Nat.add_zero]
  exact List.take_left _ _

theorem count_one_hot {rv : String} {voc : List String} (hnd : voc.Nodup)
    (hm : rv ∈ voc) :
    ((voc.map (fun cat => if rv = cat then F64.val 1 else F64.val 0)).count
      (F64.val 1)) = 1 := by
  induction voc with
  | nil => cases hm
  | cons c cs ih =>
    rw [List.nodup_cons] at hnd
    rw [List.map_cons, List.count_cons]
    rcases List.mem_cons.mp hm with rfl | hm2
    · rw [if_pos rfl]
      have hzero : (cs.map (fun cat => if rv = cat then F64.val 1 else F64.val 0)).count
          (F64.val 1) = 0 := by
        apply List.count_eq_zero.mpr
        intro hmem
        obtain ⟨cat, hcat, hind⟩ := List.mem_map.mp hmem
        by_cases hrc : rv = cat
        · exact hnd.1 (hrc ▸ hcat)
        · rw [if_neg hrc] at hind; cases hind
      rw [hzero]
      rfl
    · have hrc : rv ≠ c := fun h => hnd.1 (h ▸ hm2)
      rw [if_neg hrc, ih hnd.2 hm2]
      rfl

/-- Claim C5: in the matrix returned by `load_and_preprocess`, for every row
and every categorical column, the column's one-hot block — the
`(vocab j).length` entries at its fixed offset — is the indicator of the
row's value over the frozen vocabulary: exactly one entry is `1.0` and every
other entry is `0.0`; and the block's internal order is the sorted,
deduplicated set of string values observed for that column over the whole
dataset (sorted, duplicate-free, containing exactly the observed values). -/
theorem C5_one_hot (headers : List String) (recs : List (List Cell))
    (ncols ccols : List String) (mat : List (List F64))
    (rows : List (List ℚ × List String))
    (hload : load_and_preprocess headers recs ncols ccols = RunResult.ok mat)
    (hrows : readRows headers ncols ccols recs = RunResult.ok rows)
    (i : ℕ) (hi : i < mat.length) (j : ℕ) (hj : j < ccols.length) :
    (((mat.getD i []).drop
        (ncols.length +
          ((List.range j).map (fun t => (vocab rows t).length)).sum)).take
      (vocab rows j).length) =
      (vocab rows j).map (fun cat =>
        if (rows.getD i ([], [])).2.getD j "" = cat then F64.val 1
        else F64.val 0) ∧
    ((((mat.getD i []).drop
        (ncols.length +
          ((List.range j).map (fun t => (vocab rows t).length)).sum)).take
      (vocab rows j).length).count (F64.val 1) = 1) ∧
    (∀ e ∈ ((mat.getD i []).drop
        (ncols.length +
          ((List.range j).map (fun t => (vocab rows t).length)).sum)).take
      (vocab rows j).length, e = F64.val 1 ∨ e = F64.val 0) ∧
    (vocab rows j).Pairwise (fun a b => a ≤ b) ∧
    (vocab rows j).Nodup ∧
    (∀ s : String, s ∈ vocab rows j ↔ s ∈ catColumn rows j) := by
  obtain ⟨hlen, hrlen, hbody⟩ := load_ok_elim hload hrows
  have hi' : i < recs.length := hlen ▸ hi
  have hnd : (vocab rows j).Nodup :=
    (List.perm_insertionSort _ _).nodup_iff.mpr (List.nodup_dedup _)
  have hmemiff : ∀ s : String, s ∈ vocab rows j ↔ s ∈ catColumn rows j := by
    intro s
    unfold vocab
    rw [(List.perm_insertionSort _ _).mem_iff, List.mem_dedup]
  have hrv : (rows.getD i ([], [])).2.getD j "" ∈ catColumn rows j := by
    unfold catColumn
    refine List.mem_map.mpr ⟨rows.getD i ([], []), ?_, rfl⟩
    have h3 : i < rows.length := by rw [hrlen]; exact hi'
    rw [getD_eq_get ([], []) h3]
    exact List.get_mem rows i h3
  have hrvv : (rows.getD i ([], [])).2.getD j "" ∈ vocab rows j :=
    (hmemiff _).mpr hrv
  have hB : (((mat.getD i []).drop
        (ncols.length +
          ((List.range j).map (fun t => (vocab rows t).length)).sum)).take
      (vocab rows j).length) =
      (vocab rows j).map (fun cat =>
        if (rows.getD i ([], [])).2.getD j "" = cat then F64.val 1
        else F64.val 0) := by
    rw [hbody i hi']
    rw [← List.drop_drop]
    have hA : ((List.range ncols.length).map (fun t =>
        fdiv ((rows.getD i ([], [])).1.getD t 0 - listMin (numColumn rows t))
          (listMax (numColumn rows t) - listMin (numColumn rows t)))).length =
        ncols.length := by simp
    rw [List.drop_left' hA]
    have hfe := flatten_extract (fun t =>
      (vocab rows t).map (fun cat =>
        if (rows.getD i ([], [])).2.getD t "" = cat then F64.val 1
        else F64.val 0)) hj
    simp only [List.length_map] at hfe
    exact hfe
  refine ⟨hB, ?_, ?_, ?_, hnd, hmemiff⟩
  · rw [hB]
    exact count_one_hot hnd hrvv
  · rw [hB]
    intro e he
    obtain ⟨cat, _, hind⟩ := List.mem_map.mp he
    by_cases hrc : (rows.getD i ([], [])).2.getD j "" = cat
    · rw [if_pos hrc] at hind; exact Or.inl hind.symm
    · rw [if_neg hrc] at hind; exact Or.inr hind.symm
  · unfold vocab
    exact List.sorted_insertionSort (fun a b => a ≤ b) ((catColumn rows j).dedup)

theorem C5_one_hot_witness :
    (((([[F64.val 0, F64.val 1, F64.val 0], [F64.val 1, F64.val 0, F64.val 1]] :
        List (List F64)).getD 0 []).drop
        ((["p"] : List String).length +
          ((List.range 0).map (fun t =>
            (vocab ([([(1 : ℚ)], ["A"]), ([2], ["B"])] :
              List (List ℚ × List String)) t).length)).sum)).take
      (vocab ([([(1 : ℚ)], ["A"]), ([2], ["B"])] :
        List (List ℚ × List String)) 0).length).count (F64.val 1) = 1 :=
  (C5_one_hot ["p", "b"]
    [[Cell.mk "1.0" (some 1), Cell.mk "A" none],
     [Cell.mk "2.0" (some 2), Cell.mk "B" none]]
    ["p"] ["b"]
    [[F64.val 0, F64.val 1, F64.val 0], [F64.val 1, F64.val 0, F64.val 1]]
    [([(1 : ℚ)], ["A"]), ([2], ["B"])]
    (by with_unfolding_all decide) (by with_unfolding_all decide)
    0 (by decide) 0 (by decide)).2.1
